import Mathlib

/-!
Verification of the Git-MCP core (skeleton generation, chunk extraction,
embedding index) against its natural-language specification.

The Rust source is shallowly embedded: file contents are `List Char` with
byte offsets modelled as character indices, slicing clamps exactly where the
Rust code guards its slices, `usize` becomes `Nat`, and `f32` embedding
arithmetic is modelled over `ℝ` (the backend-produced vectors are finite, so
the real-valued model captures the guard structure of the code).  External
collaborators (the tree-sitter parser and query engine, the embedding
backend, the git wrapper) are passed in as explicit data or functions, as the
specification treats them as external; the code that consumes their results
is translated statement by statement.
-/

namespace GitMCP

/-! ## Shared string plumbing -/

/-- `(content.take e).drop s` models the Rust slice `&content[s..e]` (all
slices in the translated code are guarded in the source, so clamping agrees
with the guarded behaviour). -/
def sliceChars (content : List Char) (s e : Nat) : List Char :=
  (content.take e).drop s

/-- Number of newline characters in a character list. -/
def countNewlines (l : List Char) : Nat :=
  (l.filter (fun c => c == '\n')).length

/-- Model of Rust `str::lines().count()`: the number of `\n`-separated lines,
not counting a trailing empty segment.  Equals the newline count, plus one
when the text is nonempty and does not end in a newline. -/
def rustLinesCount (l : List Char) : Nat :=
  if l = [] then 0
  else countNewlines l + (if l.getLast? = some '\n' then 0 else 1)

/-- True 1-based line number of a byte offset: newlines before it, plus one. -/
def lineNumberAt (content : List Char) (offset : Nat) : Nat :=
  countNewlines (content.take offset) + 1

/-! ## Skeleton fold pass (`analysis.rs`, `process_tree_sitter`) -/

/-- Stable ascending insertion by start offset: the new element goes after
every element whose start is less than or equal to its own.  This is the
behaviour of Rust's stable `sort_by(|a, b| a.0.cmp(&b.0))`: elements
comparing equal keep their original relative order. -/
def insertAscByStart (x : Nat × Nat) : List (Nat × Nat) → List (Nat × Nat)
  | [] => [x]
  | y :: ys => if x.1 < y.1 then x :: y :: ys else y :: insertAscByStart x ys

/-- `ranges.sort_by(|a, b| a.0.cmp(&b.0))` — stable sort by start offset. -/
def sortRanges (ranges : List (Nat × Nat)) : List (Nat × Nat) :=
  ranges.foldl (fun acc x => insertAscByStart x acc) []

/-- The scan loop of `process_tree_sitter` (analysis.rs lines 149-164):
skip a range whose start is before the cursor, otherwise emit the untouched
slice before it, the placeholder, and continue from its end; finally emit
the trailing slice when the cursor is inside the content. -/
def foldLoop (content repl : List Char) : List (Nat × Nat) → Nat → List Char
  | [], last_pos =>
      if last_pos < content.length then content.drop last_pos else []
  | (s, e) :: rest, last_pos =>
      if s < last_pos then foldLoop content repl rest last_pos
      else sliceChars content last_pos s ++ repl ++ foldLoop content repl rest e

/-- The full fold pass: sort the capture ranges by start offset, then scan
once from cursor 0. -/
def foldRanges (content repl : List Char) (ranges : List (Nat × Nat)) : List Char :=
  foldLoop content repl (sortRanges ranges) 0

/-- Specification-side view of the scan: the sublist of ranges that the scan
actually applies (a range is retained exactly when its start is at or after
the end of the last applied range). -/
def appliedRanges : List (Nat × Nat) → Nat → List (Nat × Nat)
  | [], _ => []
  | (s, e) :: rest, last_pos =>
      if s < last_pos then appliedRanges rest last_pos
      else (s, e) :: appliedRanges rest e

/-- Specification-side rendering: each applied range contributes the
untouched slice preceding it followed by the placeholder, the cursor
advances to its end, and the trailing slice is appended. -/
def renderFold (content repl : List Char) : List (Nat × Nat) → Nat → List Char
  | [], last_pos =>
      if last_pos < content.length then content.drop last_pos else []
  | (s, e) :: rest, last_pos =>
      sliceChars content last_pos s ++ repl ++ renderFold content repl rest e

/-- `process_tree_sitter` (analysis.rs lines 114-167).  The parser, the query
constructor and the query matches are external tree-sitter calls; they enter
as the `langOk` flag, the `parsed` option, the `query` result and the capture
`ranges` the matches produce. -/
def process_tree_sitter (content repl : List Char) (langOk : Bool)
    (parsed : Option Unit) (query : Except String Unit)
    (ranges : List (Nat × Nat)) : List Char :=
  if !langOk then "Error: Failed to load language grammar".data
  else
    match parsed with
    | none => content
    | some _ =>
      match query with
      | .error e => ("Query Error: " ++ e).data
      | .ok _ => foldRanges content repl ranges

/-! ## Chunk extraction (`chunker.rs`) -/

/-- A syntax-tree node as the chunker observes it: byte range and node kind. -/
structure SNode where
  start_byte : Nat
  end_byte : Nat
  kind : String
deriving DecidableEq, Repr

/-- A query capture: the matched node together with its chain of preceding
siblings, nearest first (the chunker walks `prev_sibling()` repeatedly). -/
structure Capture where
  node : SNode
  prevs : List SNode
deriving DecidableEq, Repr

/-- Does `cs` start with `needle`? (character-list version of `str` matching) -/
def startsWithSeq : List Char → List Char → Bool
  | _, [] => true
  | [], _ :: _ => false
  | c :: cs, d :: ds => c == d && startsWithSeq cs ds

/-- Does `hay` contain `needle` as a contiguous subsequence?  Models Rust
`str::contains` for plain (non-pattern) needles. -/
def hasSubSeq : List Char → List Char → Bool
  | [], needle => needle.isEmpty
  | c :: rest, needle => startsWithSeq (c :: rest) needle || hasSubSeq rest needle

/-- `p.kind().contains("comment") || p.kind() == "string"` (chunker.rs 83). -/
def isDocNode (p : SNode) : Bool :=
  hasSubSeq p.kind.data "comment".data || p.kind == "string"

/-- The backward documentation walk (chunker.rs lines 80-94): while the
preceding sibling is a comment/string node, ends strictly before the
accumulated start, and the gap is under 50 bytes, move the start to that
sibling's start and continue with its own preceding sibling. -/
def docWalk (start_byte : Nat) : List SNode → Nat
  | [] => start_byte
  | p :: rest =>
      if isDocNode p then
        if p.end_byte < start_byte && start_byte - p.end_byte < 50 then
          docWalk p.start_byte rest
        else start_byte
      else start_byte

/-- `CodeChunk` (chunker.rs lines 4-9); content kept as characters. -/
structure CodeChunk where
  path : String
  content : List Char
  start_line : Nat
  end_line : Nat
deriving DecidableEq, Repr

/-- The chunk built from one capture (chunker.rs lines 80-99): run the doc
walk, slice the text, and compute the line fields with `lines().count()` on
the prefixes before the start and end offsets. -/
def chunkOfCapture (content : List Char) (path : String) (cap : Capture) : CodeChunk :=
  { path := path
    content := sliceChars content (docWalk cap.node.start_byte cap.prevs) cap.node.end_byte
    start_line := rustLinesCount (content.take (docWalk cap.node.start_byte cap.prevs))
    end_line := rustLinesCount (content.take cap.node.end_byte) }

/-- The capture loop of `extract_chunks` (chunker.rs lines 69-111): skip a
capture whose `(start, end)` range was already seen, otherwise record the
range, build the chunk, and keep it only when `end_line - start_line > 3`. -/
def extractLoop (content : List Char) (path : String) :
    List Capture → List (Nat × Nat) → List CodeChunk
  | [], _ => []
  | cap :: rest, seen =>
      let range := (cap.node.start_byte, cap.node.end_byte)
      if range ∈ seen then extractLoop content path rest seen
      else
        let c := chunkOfCapture content path cap
        if c.end_line - c.start_line > 3 then
          c :: extractLoop content path rest (range :: seen)
        else extractLoop content path rest (range :: seen)

/-- `extract_chunks` (chunker.rs lines 53-113).  The parse result and the
query construction are external tree-sitter calls; the captures the query
matches produce enter as data.  A parse failure returns the empty list; a
query-construction failure hits `.expect("Invalid query")`, a panic that
never returns to the caller — modelled as `none`. -/
def extract_chunks (content : List Char) (path : String)
    (parsed : Option Unit) (query : Except String Unit)
    (captures : List Capture) : Option (List CodeChunk) :=
  match parsed with
  | none => some []
  | some _ =>
    match query with
    | .error _ => none
    | .ok _ => some (extractLoop content path captures [])

/-! ## Embedding index (`indexer.rs`) -/

/-- `IndexedDoc` (indexer.rs lines 9-15); `f32` vectors become real vectors. -/
structure IndexedDoc where
  path : String
  content : String
  start_line : Nat
  embedding : List ℝ

/-- `cosine_similarity` (indexer.rs lines 130-135): dot product over the
zipped vectors, Euclidean norms, and the explicit zero-norm guard. -/
noncomputable def cosine_similarity (a b : List ℝ) : ℝ :=
  if Real.sqrt (((a.map fun x => x * x)).sum) = 0 ∨
      Real.sqrt (((b.map fun x => x * x)).sum) = 0 then 0
  else (((a.zip b).map fun p => p.1 * p.2).sum) /
    (Real.sqrt (((a.map fun x => x * x)).sum) *
     Real.sqrt (((b.map fun x => x * x)).sum))

/-- Stable descending insertion by score: the new element goes after every
element whose score is at least its own.  This is Rust's stable
`sort_by(|a, b| b.0.partial_cmp(&a.0).unwrap_or(Equal))`: elements comparing
equal keep their original relative order. -/
noncomputable def insertDescByScore (x : ℝ × IndexedDoc) :
    List (ℝ × IndexedDoc) → List (ℝ × IndexedDoc)
  | [] => [x]
  | y :: ys => if y.1 < x.1 then x :: y :: ys else y :: insertDescByScore x ys

/-- `scored_docs.sort_by(...)` — stable sort, descending by score. -/
noncomputable def sortDescByScore (l : List (ℝ × IndexedDoc)) : List (ℝ × IndexedDoc) :=
  l.foldl (fun acc x => insertDescByScore x acc) []

/-- indexer.rs lines 110-115: score every stored document against the query
vector and sort descending by score. -/
noncomputable def rankDocs (index : List IndexedDoc) (q : List ℝ) :
    List (ℝ × IndexedDoc) :=
  sortDescByScore (index.map fun doc => (cosine_similarity q doc.embedding, doc))

/-- The four exits of `search`: the "Index is empty. Run initialization."
string, the "Failed to embed query: …" string, the joined formatted matches,
and the "No relevant code found." string. -/
inductive SearchResult where
  | emptyIndex : SearchResult
  | embedFailed : String → SearchResult
  | results : List (ℝ × IndexedDoc) → SearchResult
  | noMatches : SearchResult

/-- `search` (indexer.rs lines 100-127).  The query embedding is an external
backend call and enters as an `Except`; the `{:.2}` float formatting of the
result block is abstracted into the `results` payload, keeping the score and
document of each surviving entry in order. -/
noncomputable def search (index : List IndexedDoc)
    (queryEmbedding : Except String (List ℝ)) (limit : Nat) : SearchResult :=
  if index.isEmpty then .emptyIndex
  else
    match queryEmbedding with
    | .error e => .embedFailed e
    | .ok q =>
      if ((rankDocs index q).take limit).isEmpty then .noMatches
      else .results ((rankDocs index q).take limit)

/-- The embedding input built for a chunk (indexer.rs line 71):
`"File: {path}\nLine: {start_line}\n\n{content}"`. -/
def embedInput (c : CodeChunk) : String :=
  "File: " ++ c.path ++ "\nLine: " ++ toString c.start_line ++ "\n\n" ++ String.mk c.content

/-- `index_repo` (indexer.rs lines 48-93), returning the resulting in-memory
index (which `save` then persists wholesale).  The git calls, the chunker
(which needs the external parser) and the embedding backend enter as
functions: `read_file` yields the file text or an `"Error"`-prefixed
sentinel, `chunkFn` stands for `Chunker::chunk(content, path)`, and `embed`
is the backend batch call.  The aggregate chunk list (indexer.rs lines
58-64; rayon's indexed `collect` preserves file order, so the parallel
`flat_map` equals the sequential one) is named separately. -/
def aggregateChunks (files : List String) (read_file : String → String)
    (chunkFn : String → String → List CodeChunk) : List CodeChunk :=
  files.flatMap fun path =>
    let full_content := read_file path
    if full_content.startsWith "Error" then [] else chunkFn full_content path

/-- The rebuild itself (indexer.rs lines 48-93): empty file list or empty
chunk list leave the index untouched; a backend failure leaves it untouched;
on success the whole index is replaced by the zipped `(chunk, vector)`
records. -/
def index_repo (oldIndex : List IndexedDoc) (files : List String)
    (read_file : String → String)
    (chunkFn : String → String → List CodeChunk)
    (embed : List String → Except String (List (List ℝ))) : List IndexedDoc :=
  if files.isEmpty then oldIndex
  else
    let chunks := aggregateChunks files read_file chunkFn
    if chunks.isEmpty then oldIndex
    else
      match embed (chunks.map embedInput) with
      | .error _ => oldIndex
      | .ok embeddings =>
        (chunks.zip embeddings).map fun p =>
          { path := p.1.path
            content := String.mk p.1.content
            start_line := p.1.start_line
            embedding := p.2 }

/-! ## Lemmas about the fold pass -/

/-- The scan loop renders exactly the applied sublist of its input. -/
lemma foldLoop_eq_renderFold (content repl : List Char) :
    ∀ (l : List (Nat × Nat)) (last_pos : Nat),
      foldLoop content repl l last_pos
        = renderFold content repl (appliedRanges l last_pos) last_pos := by
  intro l
  induction l with
  | nil => intro last_pos; rfl
  | cons hd tl ih =>
    intro last_pos
    obtain ⟨s, e⟩ := hd
    by_cases h : s < last_pos
    · simp [foldLoop, appliedRanges, h, ih]
    · simp [foldLoop, appliedRanges, h, renderFold, ih]

/-- For well-formed ranges (start at or before end), every range the scan
applies starts at or after the incoming cursor. -/
lemma appliedRanges_start_ge :
    ∀ (l : List (Nat × Nat)) (last_pos : Nat),
      (∀ r ∈ l, r.1 ≤ r.2) →
      ∀ x ∈ appliedRanges l last_pos, last_pos ≤ x.1 := by
  intro l
  induction l with
  | nil => intro last_pos _ x hx; simp [appliedRanges] at hx
  | cons hd tl ih =>
    intro last_pos hwf x hx
    obtain ⟨s, e⟩ := hd
    have hse : s ≤ e := hwf (s, e) (List.mem_cons_self _ _)
    have hwf' : ∀ r ∈ tl, r.1 ≤ r.2 := fun r hr => hwf r (List.mem_cons_of_mem _ hr)
    rw [appliedRanges] at hx
    by_cases h : s < last_pos
    · rw [if_pos h] at hx
      exact ih last_pos hwf' x hx
    · rw [if_neg h] at hx
      rcases List.mem_cons.mp hx with rfl | hx
      · show last_pos ≤ s
        omega
      · have h1 := ih e hwf' x hx
        omega

/-- For well-formed ranges, consecutive applied ranges never overlap: each
one ends at or before the next one starts. -/
lemma appliedRanges_chain :
    ∀ (l : List (Nat × Nat)) (last_pos : Nat),
      (∀ r ∈ l, r.1 ≤ r.2) →
      (appliedRanges l last_pos).Chain' (fun a b => a.2 ≤ b.1) := by
  intro l
  induction l with
  | nil => intro last_pos _; simp [appliedRanges]
  | cons hd tl ih =>
    intro last_pos hwf
    obtain ⟨s, e⟩ := hd
    have hwf' : ∀ r ∈ tl, r.1 ≤ r.2 := fun r hr => hwf r (List.mem_cons_of_mem _ hr)
    by_cases h : s < last_pos
    · rw [appliedRanges, if_pos h]; exact ih last_pos hwf'
    · rw [appliedRanges, if_neg h]
      refine List.chain'_cons'.mpr ⟨?_, ih e hwf'⟩
      intro y hy
      exact appliedRanges_start_ge tl e hwf' y (List.mem_of_mem_head? hy)

/-- The applied ranges form a sublist of the scanned list. -/
lemma appliedRanges_sublist :
    ∀ (l : List (Nat × Nat)) (last_pos : Nat),
      (appliedRanges l last_pos).Sublist l := by
  intro l
  induction l with
  | nil => intro last_pos; simp [appliedRanges]
  | cons hd tl ih =>
    intro last_pos
    obtain ⟨s, e⟩ := hd
    by_cases h : s < last_pos
    · rw [appliedRanges, if_pos h]
      exact (ih last_pos).cons _
    · rw [appliedRanges, if_neg h]
      exact (ih e).cons₂ _

/-- Inserting with `insertAscByStart` is a permutation of consing. -/
lemma insertAscByStart_perm (x : Nat × Nat) :
    ∀ (l : List (Nat × Nat)), (insertAscByStart x l).Perm (x :: l) := by
  intro l
  induction l with
  | nil => simp [insertAscByStart]
  | cons y ys ih =>
    rw [insertAscByStart]
    by_cases h : x.1 < y.1
    · rw [if_pos h]
    · rw [if_neg h]
      exact (ih.cons y).trans (List.Perm.swap x y ys)

/-- Sorting the ranges permutes them. -/
lemma sortRanges_perm (ranges : List (Nat × Nat)) :
    (sortRanges ranges).Perm ranges := by
  suffices h : ∀ (l acc : List (Nat × Nat)),
      (l.foldl (fun acc x => insertAscByStart x acc) acc).Perm (acc ++ l) by
    simpa using h ranges []
  intro l
  induction l with
  | nil => intro acc; simp
  | cons x xs ih =>
    intro acc
    exact (ih _).trans
      (((insertAscByStart_perm x acc).append_right xs).trans List.perm_middle.symm)

/-- `insertAscByStart` preserves ascending sortedness by start offset. -/
lemma insertAscByStart_chain (x : Nat × Nat) :
    ∀ (l : List (Nat × Nat)), l.Chain' (fun a b => a.1 ≤ b.1) →
      (insertAscByStart x l).Chain' (fun a b => a.1 ≤ b.1) := by
  intro l
  induction l with
  | nil => intro _; simp [insertAscByStart]
  | cons y ys ih =>
    intro hl
    rw [insertAscByStart]
    by_cases h : x.1 < y.1
    · rw [if_pos h]
      exact List.chain'_cons.mpr ⟨by omega, hl⟩
    · rw [if_neg h]
      rcases ys with _ | ⟨w, ws⟩
      · exact List.chain'_cons.mpr ⟨by omega, List.chain'_singleton x⟩
      · have htl : (w :: ws).Chain' (fun a b => a.1 ≤ b.1) := (List.chain'_cons.mp hl).2
        have hin := ih htl
        rw [insertAscByStart] at hin ⊢
        by_cases h2 : x.1 < w.1
        · rw [if_pos h2] at hin ⊢
          exact List.chain'_cons.mpr ⟨by omega, hin⟩
        · rw [if_neg h2] at hin ⊢
          exact List.chain'_cons.mpr ⟨(List.chain'_cons.mp hl).1, hin⟩

/-- The sorted ranges are ascending by start offset. -/
lemma sortRanges_chain (ranges : List (Nat × Nat)) :
    (sortRanges ranges).Chain' (fun a b => a.1 ≤ b.1) := by
  suffices h : ∀ (l acc : List (Nat × Nat)), acc.Chain' (fun a b => a.1 ≤ b.1) →
      (l.foldl (fun acc x => insertAscByStart x acc) acc).Chain' (fun a b => a.1 ≤ b.1) by
    exact h ranges [] (by simp)
  intro l
  induction l with
  | nil => intro acc h; simpa using h
  | cons x xs ih =>
    intro acc h
    exact ih _ (insertAscByStart_chain x acc h)

/-- From non-overlap of consecutive ranges and well-formedness of each range,
the starts are ascending. -/
lemma chain_start_ascending :
    ∀ (l : List (Nat × Nat)), (∀ r ∈ l, r.1 ≤ r.2) →
      l.Chain' (fun a b => a.2 ≤ b.1) → l.Chain' (fun a b => a.1 ≤ b.1) := by
  intro l
  induction l with
  | nil => intro _ _; simp
  | cons a t ih =>
    intro hwf hc
    rcases t with _ | ⟨b, t'⟩
    · simp
    · have ha : a.1 ≤ a.2 := hwf a (List.mem_cons_self _ _)
      have h1 := (List.chain'_cons.mp hc).1
      refine List.chain'_cons.mpr ⟨by omega, ?_⟩
      exact ih (fun r hr => hwf r (List.mem_cons_of_mem _ hr)) (List.chain'_cons.mp hc).2

/-- C1: skeleton generation sorts the fold capture ranges by start offset
ascending (stably) and scans once, discarding any range that starts before
the end of the last applied range; each retained range contributes the
untouched slice preceding it, the placeholder, and advances the cursor to
its end, with the trailing slice appended.  Consequently the applied ranges
are exactly the scan-retained ones: a sublist of the sorted ranges, each
well-formed, pairwise non-overlapping and in ascending start order — only
the first (outermost) range of each overlapping/nested cluster is folded,
and no negative-length or reordered substitution occurs. -/
theorem c1_fold_overlap_resolution (content repl : List Char)
    (ranges : List (Nat × Nat)) (hwf : ∀ r ∈ ranges, r.1 ≤ r.2) :
    foldRanges content repl ranges
      = renderFold content repl (appliedRanges (sortRanges ranges) 0) 0 ∧
    (sortRanges ranges).Perm ranges ∧
    (sortRanges ranges).Chain' (fun a b => a.1 ≤ b.1) ∧
    (appliedRanges (sortRanges ranges) 0).Sublist (sortRanges ranges) ∧
    (∀ r ∈ appliedRanges (sortRanges ranges) 0, r.1 ≤ r.2) ∧
    (appliedRanges (sortRanges ranges) 0).Chain' (fun a b => a.2 ≤ b.1) ∧
    (appliedRanges (sortRanges ranges) 0).Chain' (fun a b => a.1 ≤ b.1) := by
  have hperm := sortRanges_perm ranges
  have hwfs : ∀ r ∈ sortRanges ranges, r.1 ≤ r.2 :=
    fun r hr => hwf r (hperm.mem_iff.mp hr)
  have hsub := appliedRanges_sublist (sortRanges ranges) 0
  have hwfa : ∀ r ∈ appliedRanges (sortRanges ranges) 0, r.1 ≤ r.2 :=
    fun r hr => hwfs r (hsub.mem hr)
  have hchain := appliedRanges_chain (sortRanges ranges) 0 hwfs
  refine ⟨foldLoop_eq_renderFold content repl (sortRanges ranges) 0, hperm,
    sortRanges_chain ranges, hsub, hwfa, hchain,
    chain_start_ascending _ hwfa hchain⟩

/-- Witness for C1 at the concrete content `"fn a() \x7b x \x7d\nfn b() \x7b y \x7d"`
with placeholder `" ... "` and capture ranges `(7,12)`, `(20,25)` and the
nested `(9,11)`. -/
theorem c1_fold_overlap_resolution_witness :
    (∀ r ∈ [((7:Nat), (12:Nat)), (20, 25), (9, 11)], r.1 ≤ r.2) ∧
    (foldRanges "fn a() \x7b x \x7d\nfn b() \x7b y \x7d".data " ... ".data
        [(7, 12), (20, 25), (9, 11)]
      = renderFold "fn a() \x7b x \x7d\nfn b() \x7b y \x7d".data " ... ".data
          (appliedRanges (sortRanges [(7, 12), (20, 25), (9, 11)]) 0) 0 ∧
    (sortRanges [(7, 12), (20, 25), (9, 11)]).Perm [(7, 12), (20, 25), (9, 11)] ∧
    (sortRanges [(7, 12), (20, 25), (9, 11)]).Chain' (fun a b => a.1 ≤ b.1) ∧
    (appliedRanges (sortRanges [(7, 12), (20, 25), (9, 11)]) 0).Sublist
      (sortRanges [(7, 12), (20, 25), (9, 11)]) ∧
    (∀ r ∈ appliedRanges (sortRanges [(7, 12), (20, 25), (9, 11)]) 0, r.1 ≤ r.2) ∧
    (appliedRanges (sortRanges [(7, 12), (20, 25), (9, 11)]) 0).Chain'
      (fun a b => a.2 ≤ b.1) ∧
    (appliedRanges (sortRanges [(7, 12), (20, 25), (9, 11)]) 0).Chain'
      (fun a b => a.1 ≤ b.1)) :=
  ⟨by decide,
   c1_fold_overlap_resolution "fn a() \x7b x \x7d\nfn b() \x7b y \x7d".data " ... ".data
     [(7, 12), (20, 25), (9, 11)] (by decide)⟩

/-! ## Lemmas about line counting and the documentation walk -/

/-- `rustLinesCount` is at least the newline count. -/
lemma countNewlines_le_rustLinesCount (l : List Char) :
    countNewlines l ≤ rustLinesCount l := by
  rw [rustLinesCount]
  split
  · subst ‹l = []›
    simp [countNewlines]
  · split <;> omega

/-- `rustLinesCount` is at most the newline count plus one. -/
lemma rustLinesCount_le_succ (l : List Char) :
    rustLinesCount l ≤ countNewlines l + 1 := by
  rw [rustLinesCount]
  split
  · omega
  · split <;> omega

/-- Newline counting over prefixes is monotone. -/
lemma countNewlines_take_mono (content : List Char) {s e : Nat} (h : s ≤ e) :
    countNewlines (content.take s) ≤ countNewlines (content.take e) := by
  have heq : content.take s = (content.take e).take s := by
    rw [List.take_take, min_eq_left h]
  rw [heq, countNewlines, countNewlines]
  exact ((List.take_sublist s (content.take e)).filter _).length_le

/-- The stored line difference over an offset pair is at most its true line
span (number of 1-based lines the byte range touches). -/
lemma rustDiff_le_trueSpan (content : List Char) {s e : Nat} (h : s ≤ e) :
    rustLinesCount (content.take e) - rustLinesCount (content.take s)
      ≤ lineNumberAt content e - lineNumberAt content s + 1 := by
  have h1 := countNewlines_le_rustLinesCount (content.take s)
  have h2 := rustLinesCount_le_succ (content.take e)
  have h3 := countNewlines_take_mono content h
  rw [lineNumberAt, lineNumberAt]
  omega

/-- The documentation walk never moves the start later (given well-formed
sibling nodes, whose start is at or before their end). -/
lemma docWalk_le :
    ∀ (prevs : List SNode) (s : Nat), (∀ p ∈ prevs, p.start_byte ≤ p.end_byte) →
      docWalk s prevs ≤ s := by
  intro prevs
  induction prevs with
  | nil => intro s _; simp [docWalk]
  | cons p rest ih =>
    intro s hwf
    rw [docWalk]
    by_cases hdoc : isDocNode p
    · rw [if_pos hdoc]
      by_cases hcond : p.end_byte < s ∧ s - p.end_byte < 50
      · have hb : (p.end_byte < s && s - p.end_byte < 50) = true := by
          simp [hcond.1, hcond.2]
        rw [if_pos hb]
        have h1 := ih p.start_byte (fun q hq => hwf q (List.mem_cons_of_mem _ hq))
        have h2 := hwf p (List.mem_cons_self _ _)
        omega
      · have hb : ¬((p.end_byte < s && s - p.end_byte < 50) = true) := by
          simp only [Bool.and_eq_true, decide_eq_true_eq]
          exact hcond
        rw [if_neg hb]
    · rw [if_neg hdoc]

/-- Every chunk the extraction loop emits passed the `> 3` line filter. -/
lemma extractLoop_span :
    ∀ (captures : List Capture) (content : List Char) (path : String)
      (seen : List (Nat × Nat)) (c : CodeChunk),
      c ∈ extractLoop content path captures seen →
      3 < c.end_line - c.start_line := by
  intro captures
  induction captures with
  | nil => intro content path seen c hc; simp [extractLoop] at hc
  | cons cap rest ih =>
    intro content path seen c hc
    rw [extractLoop] at hc
    by_cases hseen : (cap.node.start_byte, cap.node.end_byte) ∈ seen
    · rw [if_pos hseen] at hc
      exact ih content path seen c hc
    · rw [if_neg hseen] at hc
      simp only at hc
      by_cases hspan : 3 < (chunkOfCapture content path cap).end_line -
          (chunkOfCapture content path cap).start_line
      · rw [if_pos hspan] at hc
        rcases List.mem_cons.mp hc with rfl | hc
        · exact hspan
        · exact ih content path _ c hc
      · rw [if_neg hspan] at hc
        exact ih content path _ c hc

/-- C4 counterexample: in `"fn f() \x7b\na\nb\nc\nd\n\x7d"` the declaration starts
at byte 0, i.e. on line 1 (`lineNumberAt` is 1), but the stored `start_line`
of the extracted chunk is 0, not 1 — `content[..0].lines().count()` is 0. -/
theorem c4_counterexample :
    lineNumberAt "fn f() \x7b\na\nb\nc\nd\n\x7d".data 0 = 1 ∧
    (extractLoop "fn f() \x7b\na\nb\nc\nd\n\x7d".data "t.rs"
        [⟨⟨0, 18, "function_item"⟩, []⟩] []).map (fun c => c.start_line) = [0] := by
  decide

/-- C4 (amended): the stored `startLine`/`endLine` are `lines().count()` of
the content preceding the chunk's start and end offsets.  This equals the
1-based line number (newlines before the offset, plus one) exactly when the
preceding content is nonempty and does not end in a newline (a mid-line
offset), and is one less — the 0-based number — when the offset sits at the
start of a line or of the file; in particular a declaration beginning at
byte 0 has `startLine` 0, not 1. -/
theorem c4_line_numbers (content : List Char) (path : String) (cap : Capture)
    (o : Nat) :
    ((chunkOfCapture content path cap).start_line
        = rustLinesCount (content.take (docWalk cap.node.start_byte cap.prevs)) ∧
     (chunkOfCapture content path cap).end_line
        = rustLinesCount (content.take cap.node.end_byte)) ∧
    (content.take o ≠ [] → (content.take o).getLast? ≠ some '\n' →
        rustLinesCount (content.take o) = lineNumberAt content o) ∧
    (content.take o = [] ∨ (content.take o).getLast? = some '\n' →
        rustLinesCount (content.take o) + 1 = lineNumberAt content o) := by
  refine ⟨⟨rfl, rfl⟩, ?_, ?_⟩
  · intro h1 h2
    rw [rustLinesCount, if_neg h1, if_neg h2, lineNumberAt]
  · intro h
    rcases h with h | h
    · rw [rustLinesCount, if_pos h, lineNumberAt, h]
      simp [countNewlines]
    · have h1 : content.take o ≠ [] := by
        intro hnil
        rw [hnil] at h
        simp at h
      rw [rustLinesCount, if_neg h1, if_pos h, lineNumberAt]

/-- Witness for C4 (amended) at content `"ab\ncd"` with offset 4 (mid-line:
the stored count 2 equals the 1-based line number 2) and a concrete capture. -/
theorem c4_line_numbers_witness :
    (("ab\ncd".data.take 4 ≠ [] → ("ab\ncd".data.take 4).getLast? ≠ some '\n' →
        rustLinesCount ("ab\ncd".data.take 4) = lineNumberAt "ab\ncd".data 4) ∧
     ("ab\ncd".data.take 4 = [] ∨ ("ab\ncd".data.take 4).getLast? = some '\n' →
        rustLinesCount ("ab\ncd".data.take 4) + 1 = lineNumberAt "ab\ncd".data 4)) ∧
    rustLinesCount ("ab\ncd".data.take 4) = 2 ∧
    (chunkOfCapture "ab\ncd".data "t.rs" ⟨⟨0, 5, "function_item"⟩, []⟩).start_line
      = rustLinesCount ("ab\ncd".data.take
          (docWalk (0 : Nat) ([] : List SNode))) :=
  ⟨⟨(c4_line_numbers "ab\ncd".data "t.rs" ⟨⟨0, 5, "function_item"⟩, []⟩ 4).2.1,
    (c4_line_numbers "ab\ncd".data "t.rs" ⟨⟨0, 5, "function_item"⟩, []⟩ 4).2.2⟩,
   by decide,
   (c4_line_numbers "ab\ncd".data "t.rs" ⟨⟨0, 5, "function_item"⟩, []⟩ 4).1.1⟩

/-- C6 counterexample: in the Python file
`"class A:\n    def f(self):\n        a\n        b\n        c\n"` the
captured declaration runs from byte 13 (line 2) to byte 55 (line 5), i.e. it
spans exactly 4 lines, yet extraction discards it: being indented, its
stored `start_line` is 1-based (2) while its `end_line` is also 1-based (5),
so the stored difference is 3 and the `> 3` filter rejects it.  The claim
says a declaration spanning 4 lines is included. -/
theorem c6_counterexample :
    lineNumberAt "class A:\n    def f(self):\n        a\n        b\n        c\n".data 13 = 2 ∧
    lineNumberAt "class A:\n    def f(self):\n        a\n        b\n        c\n".data 55 = 5 ∧
    extractLoop "class A:\n    def f(self):\n        a\n        b\n        c\n".data
      "t.py" [⟨⟨13, 55, "function_definition"⟩, []⟩] [] = [] := by
  decide

/-- C6 (amended): extraction discards every chunk whose stored line fields
satisfy `end_line - start_line <= 3`, so every emitted chunk has a stored
difference above 3; the stored difference never exceeds the true line span
of the offsets, so a declaration spanning at most 3 true lines is always
excluded.  A 4-line declaration starting at the beginning of a line is
included (its stored start is 0-based), but an indented 4-line declaration
is excluded (its stored start is 1-based, making the difference 3). -/
theorem c6_span_filter (content : List Char) (path : String)
    (captures : List Capture) (seen : List (Nat × Nat)) (s e : Nat) :
    (∀ c ∈ extractLoop content path captures seen, 3 < c.end_line - c.start_line) ∧
    (s ≤ e → rustLinesCount (content.take e) - rustLinesCount (content.take s)
        ≤ lineNumberAt content e - lineNumberAt content s + 1) ∧
    (s ≤ e → lineNumberAt content e - lineNumberAt content s + 1 ≤ 3 →
        ¬(3 < rustLinesCount (content.take e) - rustLinesCount (content.take s))) ∧
    ((extractLoop "fn f() \x7b\na\nb\n\x7d".data "t.rs"
        [⟨⟨0, 14, "function_item"⟩, []⟩] []).map
        (fun c => (c.start_line, c.end_line)) = [(0, 4)]) ∧
    (extractLoop "class A:\n    def f(self):\n        a\n        b\n        c\n".data
        "t.py" [⟨⟨13, 55, "function_definition"⟩, []⟩] [] = []) := by
  refine ⟨fun c hc => extractLoop_span captures content path seen c hc,
    fun h => rustDiff_le_trueSpan content h, ?_, by decide, by decide⟩
  intro h1 h2
  have := rustDiff_le_trueSpan content h1
  omega

/-- Witness for C6 (amended) at the column-0 four-line file
`"fn f() \x7b\na\nb\n\x7d"` with its single capture, offsets 0 and 14. -/
theorem c6_span_filter_witness :
    (∀ c ∈ extractLoop "fn f() \x7b\na\nb\n\x7d".data "t.rs"
        [⟨⟨0, 14, "function_item"⟩, []⟩] [], 3 < c.end_line - c.start_line) ∧
    ((0 : Nat) ≤ 14) ∧
    (rustLinesCount ("fn f() \x7b\na\nb\n\x7d".data.take 14)
        - rustLinesCount ("fn f() \x7b\na\nb\n\x7d".data.take 0)
      ≤ lineNumberAt "fn f() \x7b\na\nb\n\x7d".data 14
        - lineNumberAt "fn f() \x7b\na\nb\n\x7d".data 0 + 1) :=
  ⟨(c6_span_filter "fn f() \x7b\na\nb\n\x7d".data "t.rs"
      [⟨⟨0, 14, "function_item"⟩, []⟩] [] 0 14).1,
   by decide,
   (c6_span_filter "fn f() \x7b\na\nb\n\x7d".data "t.rs"
      [⟨⟨0, 14, "function_item"⟩, []⟩] [] 0 14).2.1 (by decide)⟩

/-- C7 counterexample: a comment sibling ending exactly at the accumulated
start (gap 0, which is below the 50-byte threshold) is NOT attached: the
walk requires `p.end_byte < start_byte` strictly, so the start stays at 100
instead of moving to 50.  The claim's condition (comment node and gap below
50) is satisfied, yet no extension happens. -/
theorem c7_counterexample :
    isDocNode ⟨50, 100, "comment"⟩ = true ∧
    (100 : Nat) - 100 < 50 ∧
    docWalk 100 [⟨50, 100, "comment"⟩] = 100 := by
  decide

/-- C7 (amended): the walk extends the start to the sibling's start exactly
while the sibling is a comment/string node AND it ends strictly before the
accumulated start AND the (positive) byte gap is below 50; it stops at the
first sibling failing any of these, so an immediately adjacent sibling
(gap 0) is not attached.  A comment ending 10 bytes before the declaration
is attached; one ending 1000 bytes before is not. -/
theorem c7_doc_attachment (s : Nat) (p : SNode) (rest : List SNode) :
    (isDocNode p = true → p.end_byte < s → s - p.end_byte < 50 →
        docWalk s (p :: rest) = docWalk p.start_byte rest) ∧
    (isDocNode p = false → docWalk s (p :: rest) = s) ∧
    (¬(p.end_byte < s ∧ s - p.end_byte < 50) → docWalk s (p :: rest) = s) ∧
    docWalk 100 [⟨50, 90, "comment"⟩] = 50 ∧
    docWalk 2000 [⟨500, 1000, "comment"⟩] = 2000 ∧
    isDocNode ⟨0, 0, "line_comment"⟩ = true ∧
    isDocNode ⟨0, 0, "string"⟩ = true := by
  refine ⟨?_, ?_, ?_, by decide, by decide, by decide, by decide⟩
  · intro hdoc h1 h2
    rw [docWalk, if_pos hdoc, if_pos (by simp [h1, h2])]
  · intro hdoc
    rw [docWalk, if_neg (by simp [hdoc])]
  · intro hcond
    rw [docWalk]
    by_cases hdoc : isDocNode p
    · rw [if_pos hdoc, if_neg (by simp only [Bool.and_eq_true, decide_eq_true_eq]; exact hcond)]
    · rw [if_neg hdoc]

/-- Witness for C7 (amended): a comment node ending 10 bytes before start
100 triggers the extension branch. -/
theorem c7_doc_attachment_witness :
    (isDocNode ⟨50, 90, "comment"⟩ = true ∧ (90 : Nat) < 100 ∧ (100 : Nat) - 90 < 50) ∧
    docWalk 100 [⟨(50 : Nat), 90, "comment"⟩] = docWalk 50 [] :=
  ⟨⟨by decide, by decide, by decide⟩,
   (c7_doc_attachment 100 ⟨50, 90, "comment"⟩ []).1 (by decide) (by decide) (by decide)⟩

/-- C10: the documentation walk only ever moves the chunk's start earlier
(never later; `Nat` offsets cannot go below 0), the chunk's end stays at
the matched declaration's end, and therefore the chunk's content contains
the complete declaration text as a suffix. -/
theorem c10_chunk_contains_declaration (content : List Char) (path : String)
    (cap : Capture) (hwf : ∀ p ∈ cap.prevs, p.start_byte ≤ p.end_byte) :
    docWalk cap.node.start_byte cap.prevs ≤ cap.node.start_byte ∧
    (chunkOfCapture content path cap).content
      = sliceChars content (docWalk cap.node.start_byte cap.prevs) cap.node.end_byte ∧
    sliceChars content cap.node.start_byte cap.node.end_byte <:+
      (chunkOfCapture content path cap).content := by
  have hle := docWalk_le cap.prevs cap.node.start_byte hwf
  refine ⟨hle, rfl, ?_⟩
  show sliceChars content cap.node.start_byte cap.node.end_byte <:+
    sliceChars content (docWalk cap.node.start_byte cap.prevs) cap.node.end_byte
  rw [sliceChars, sliceChars]
  have hsplit : List.drop cap.node.start_byte (content.take cap.node.end_byte)
      = List.drop (cap.node.start_byte - docWalk cap.node.start_byte cap.prevs)
          (List.drop (docWalk cap.node.start_byte cap.prevs)
            (content.take cap.node.end_byte)) := by
    rw [List.drop_drop]
    congr 1
    omega
  rw [hsplit]
  exact List.drop_suffix _ _

/-- Witness for C10: a declaration at bytes 20-30 with a comment sibling at
bytes 0-15. -/
theorem c10_chunk_contains_declaration_witness :
    (∀ p ∈ [(⟨0, 15, "comment"⟩ : SNode)], p.start_byte ≤ p.end_byte) ∧
    (docWalk 20 [(⟨0, 15, "comment"⟩ : SNode)] ≤ 20 ∧
     (chunkOfCapture "aaaaabbbbbcccccdddddeeeeefffff".data "t.rs"
         ⟨⟨20, 30, "function_item"⟩, [⟨0, 15, "comment"⟩]⟩).content
       = sliceChars "aaaaabbbbbcccccdddddeeeeefffff".data
           (docWalk 20 [(⟨0, 15, "comment"⟩ : SNode)]) 30 ∧
     sliceChars "aaaaabbbbbcccccdddddeeeeefffff".data 20 30 <:+
       (chunkOfCapture "aaaaabbbbbcccccdddddeeeeefffff".data "t.rs"
           ⟨⟨20, 30, "function_item"⟩, [⟨0, 15, "comment"⟩]⟩).content) :=
  ⟨by decide,
   c10_chunk_contains_declaration "aaaaabbbbbcccccdddddeeeeefffff".data "t.rs"
     ⟨⟨20, 30, "function_item"⟩, [⟨0, 15, "comment"⟩]⟩ (by decide)⟩

/-! ## Lemmas about the search ranking -/

/-- Inserting with `insertDescByScore` is a permutation of consing. -/
lemma insertDescByScore_perm (x : ℝ × IndexedDoc) :
    ∀ (l : List (ℝ × IndexedDoc)), (insertDescByScore x l).Perm (x :: l) := by
  intro l
  induction l with
  | nil => simp [insertDescByScore]
  | cons y ys ih =>
    rw [insertDescByScore]
    by_cases h : y.1 < x.1
    · rw [if_pos h]
    · rw [if_neg h]
      exact (ih.cons y).trans (List.Perm.swap x y ys)

/-- Ranking permutes the scored documents. -/
lemma sortDescByScore_perm (l : List (ℝ × IndexedDoc)) :
    (sortDescByScore l).Perm l := by
  suffices h : ∀ (l acc : List (ℝ × IndexedDoc)),
      (l.foldl (fun acc x => insertDescByScore x acc) acc).Perm (acc ++ l) by
    simpa using h l []
  intro l
  induction l with
  | nil => intro acc; simp
  | cons x xs ih =>
    intro acc
    exact (ih _).trans
      (((insertDescByScore_perm x acc).append_right xs).trans List.perm_middle.symm)

/-- `insertDescByScore` preserves descending sortedness by score. -/
lemma insertDescByScore_chain (x : ℝ × IndexedDoc) :
    ∀ (l : List (ℝ × IndexedDoc)), l.Chain' (fun a b => b.1 ≤ a.1) →
      (insertDescByScore x l).Chain' (fun a b => b.1 ≤ a.1) := by
  intro l
  induction l with
  | nil => intro _; simp [insertDescByScore]
  | cons y ys ih =>
    intro hl
    rw [insertDescByScore]
    by_cases h : y.1 < x.1
    · rw [if_pos h]
      exact List.chain'_cons.mpr ⟨le_of_lt h, hl⟩
    · rw [if_neg h]
      rcases ys with _ | ⟨w, ws⟩
      · exact List.chain'_cons.mpr ⟨not_lt.mp h, List.chain'_singleton x⟩
      · have htl : (w :: ws).Chain' (fun a b => b.1 ≤ a.1) := (List.chain'_cons.mp hl).2
        have hin := ih htl
        rw [insertDescByScore] at hin ⊢
        by_cases h2 : w.1 < x.1
        · rw [if_pos h2] at hin ⊢
          exact List.chain'_cons.mpr ⟨not_lt.mp h, hin⟩
        · rw [if_neg h2] at hin ⊢
          exact List.chain'_cons.mpr ⟨(List.chain'_cons.mp hl).1, hin⟩

/-- The ranked list is sorted descending by score. -/
lemma sortDescByScore_chain (l : List (ℝ × IndexedDoc)) :
    (sortDescByScore l).Chain' (fun a b => b.1 ≤ a.1) := by
  suffices h : ∀ (l acc : List (ℝ × IndexedDoc)), acc.Chain' (fun a b => b.1 ≤ a.1) →
      (l.foldl (fun acc x => insertDescByScore x acc) acc).Chain' (fun a b => b.1 ≤ a.1) by
    exact h l [] (by simp)
  intro l
  induction l with
  | nil => intro acc h; simpa using h
  | cons x xs ih =>
    intro acc h
    exact ih _ (insertDescByScore_chain x acc h)

/-- Ranking preserves the number of entries. -/
lemma rankDocs_length (index : List IndexedDoc) (q : List ℝ) :
    (rankDocs index q).length = index.length := by
  rw [rankDocs, (sortDescByScore_perm _).length_eq, List.length_map]

/-- Positional pairing through `zip` and `map`. -/
lemma getElem?_zip_map {A B C : Type} (f : A × B → C) :
    ∀ (l1 : List A) (l2 : List B) (i : Nat) (a : A) (b : B),
      l1[i]? = some a → l2[i]? = some b →
      ((l1.zip l2).map f)[i]? = some (f (a, b)) := by
  intro l1
  induction l1 with
  | nil => intro l2 i a b h1 _; simp at h1
  | cons x xs ih =>
    intro l2 i a b h1 h2
    cases l2 with
    | nil => simp at h2
    | cons y ys =>
      cases i with
      | zero =>
        simp only [List.getElem?_cons_zero, Option.some_inj] at h1 h2
        subst h1
        subst h2
        simp [List.zip_cons_cons]
      | succ n =>
        simp only [List.getElem?_cons_succ] at h1 h2
        simp only [List.zip_cons_cons, List.map_cons, List.getElem?_cons_succ]
        exact ih ys n a b h1 h2

/-- C9: cosine similarity equals `dot(a,b) / (norm(a) * norm(b))` except
that when either norm is exactly zero the result is defined as 0; the
division is only ever taken with a nonzero denominator, and an all-zero
vector scores 0 against every other vector (in this real-valued model of
the `f32` arithmetic, the guarded division can produce neither NaN nor a
division fault). -/
theorem c9_cosine_zero_norm (a b : List ℝ) :
    (Real.sqrt ((a.map fun x => x * x).sum) = 0 ∨
        Real.sqrt ((b.map fun x => x * x).sum) = 0 →
      cosine_similarity a b = 0) ∧
    (¬(Real.sqrt ((a.map fun x => x * x).sum) = 0 ∨
        Real.sqrt ((b.map fun x => x * x).sum) = 0) →
      cosine_similarity a b
        = (((a.zip b).map fun p => p.1 * p.2).sum) /
          (Real.sqrt ((a.map fun x => x * x).sum) *
           Real.sqrt ((b.map fun x => x * x).sum)) ∧
      Real.sqrt ((a.map fun x => x * x).sum) *
        Real.sqrt ((b.map fun x => x * x).sum) ≠ 0) ∧
    (∀ n, cosine_similarity a (List.replicate n 0) = 0) ∧
    (∀ n, cosine_similarity (List.replicate n 0) b = 0) := by
  refine ⟨?_, ?_, ?_, ?_⟩
  · intro h
    rw [cosine_similarity, if_pos h]
  · intro h
    rw [cosine_similarity, if_neg h]
    exact ⟨rfl, mul_ne_zero (not_or.mp h).1 (not_or.mp h).2⟩
  · intro n
    have hz : Real.sqrt (((List.replicate n (0:ℝ)).map fun x => x * x).sum) = 0 := by
      simp
    rw [cosine_similarity, if_pos (Or.inr hz)]
  · intro n
    have hz : Real.sqrt (((List.replicate n (0:ℝ)).map fun x => x * x).sum) = 0 := by
      simp
    rw [cosine_similarity, if_pos (Or.inl hz)]

/-- Witness for C9 at the all-zero vector `[0]` against `[3]`. -/
theorem c9_cosine_zero_norm_witness :
    (Real.sqrt ((([(0:ℝ)]).map fun x => x * x).sum) = 0 ∨
     Real.sqrt ((([(3:ℝ)]).map fun x => x * x).sum) = 0) ∧
    cosine_similarity [(0:ℝ)] [(3:ℝ)] = 0 :=
  ⟨Or.inl (by simp),
   (c9_cosine_zero_norm [(0:ℝ)] [(3:ℝ)]).1 (Or.inl (by simp))⟩

/-- C5 counterexample: on a one-entry index, `search` with `limit = 0`
reaches the generic "No relevant code found." outcome: the ranked list is
truncated to the empty list by `take 0`, so `results.is_empty()` holds even
though the index is nonempty.  The claim says this outcome is unreachable
for every k once the index has an entry. -/
theorem c5_counterexample :
    search [⟨"a", "x", 1, [1]⟩] (.ok [1]) 0 = .noMatches := rfl

/-- C5 (amended): `search` on an empty index returns the distinguishable
empty-index signal, never an empty result list and never a generic error;
and for every nonempty index and every `k ≥ 1` the generic "no matches"
outcome is unreachable — a nonempty result list is returned.  (For `k = 0`
the "no matches" outcome IS reachable on a nonempty index.) -/
theorem c5_empty_index_signal (index : List IndexedDoc)
    (qe : Except String (List ℝ)) (q : List ℝ) (k : Nat) :
    search [] qe k = .emptyIndex ∧
    (index ≠ [] → 1 ≤ k →
      search index (.ok q) k ≠ .noMatches ∧
      ∃ rs, rs ≠ [] ∧ search index (.ok q) k = .results rs) := by
  constructor
  · rfl
  · intro hne hk
    have hlen : 0 < (rankDocs index q).length := by
      rw [rankDocs_length]
      exact List.length_pos.mpr hne
    have htake : (rankDocs index q).take k ≠ [] := by
      intro h
      rcases List.take_eq_nil_iff.mp h with h | h
      · omega
      · exact absurd h (List.ne_nil_of_length_pos hlen)
    have hempty : ¬(index.isEmpty = true) := by
      simp [List.isEmpty_iff, hne]
    have htakeb : ¬(((rankDocs index q).take k).isEmpty = true) := by
      simp [List.isEmpty_iff, htake]
    have hres : search index (.ok q) k = .results ((rankDocs index q).take k) := by
      simp only [search]
      rw [if_neg hempty, if_neg htakeb]
    refine ⟨?_, (rankDocs index q).take k, htake, hres⟩
    rw [hres]
    intro h
    exact SearchResult.noConfusion h

/-- Witness for C5 (amended) on a concrete one-entry index with `k = 2`. -/
theorem c5_empty_index_signal_witness :
    ([(⟨"a", "x", 1, [1]⟩ : IndexedDoc)] ≠ [] ∧ (1 : Nat) ≤ 2) ∧
    (search ([] : List IndexedDoc) (.ok [1]) 2 = .emptyIndex ∧
     (search [(⟨"a", "x", 1, [1]⟩ : IndexedDoc)] (.ok [1]) 2 ≠ .noMatches ∧
      ∃ rs, rs ≠ [] ∧
        search [(⟨"a", "x", 1, [1]⟩ : IndexedDoc)] (.ok [1]) 2 = .results rs)) :=
  ⟨⟨by simp, by omega⟩,
   (c5_empty_index_signal [⟨"a", "x", 1, [1]⟩] (.ok [1]) [1] 2).1,
   (c5_empty_index_signal [⟨"a", "x", 1, [1]⟩] (.ok [1]) [1] 2).2
     (by simp) (by omega)⟩

/-- C3: a rebuild whose aggregate chunk list is empty, or whose embedding
backend call fails, leaves the previous index entirely unchanged; on
success the whole index is replaced by records pairing the i-th chunk with
the i-th returned vector, preserving input order end to end. -/
theorem c3_rebuild_atomicity (oldIndex : List IndexedDoc) (files : List String)
    (read_file : String → String)
    (chunkFn : String → String → List CodeChunk)
    (embed : List String → Except String (List (List ℝ))) :
    (aggregateChunks files read_file chunkFn = [] →
      index_repo oldIndex files read_file chunkFn embed = oldIndex) ∧
    (∀ msg, embed ((aggregateChunks files read_file chunkFn).map embedInput)
          = .error msg →
      index_repo oldIndex files read_file chunkFn embed = oldIndex) ∧
    (∀ es, aggregateChunks files read_file chunkFn ≠ [] →
      embed ((aggregateChunks files read_file chunkFn).map embedInput) = .ok es →
      index_repo oldIndex files read_file chunkFn embed
        = ((aggregateChunks files read_file chunkFn).zip es).map (fun p =>
            ({ path := p.1.path, content := String.mk p.1.content,
               start_line := p.1.start_line, embedding := p.2 } : IndexedDoc)) ∧
      ∀ (i : Nat) (d : CodeChunk) (e : List ℝ),
        (aggregateChunks files read_file chunkFn)[i]? = some d →
        es[i]? = some e →
        (index_repo oldIndex files read_file chunkFn embed)[i]?
          = some ({ path := d.path, content := String.mk d.content,
                    start_line := d.start_line, embedding := e } : IndexedDoc)) := by
  have hunfold : index_repo oldIndex files read_file chunkFn embed
      = if files.isEmpty then oldIndex
        else if (aggregateChunks files read_file chunkFn).isEmpty then oldIndex
        else
          match embed ((aggregateChunks files read_file chunkFn).map embedInput) with
          | .error _ => oldIndex
          | .ok embeddings =>
            ((aggregateChunks files read_file chunkFn).zip embeddings).map
              (fun p => ({ path := p.1.path, content := String.mk p.1.content,
                           start_line := p.1.start_line, embedding := p.2 } : IndexedDoc)) := rfl
  refine ⟨?_, ?_, ?_⟩
  · intro h
    rw [hunfold]
    by_cases hf : files.isEmpty
    · rw [if_pos hf]
    · rw [if_neg hf, if_pos (by simp [h])]
  · intro msg hmsg
    rw [hunfold]
    by_cases hf : files.isEmpty
    · rw [if_pos hf]
    · rw [if_neg hf]
      by_cases hc : (aggregateChunks files read_file chunkFn).isEmpty
      · rw [if_pos hc]
      · rw [if_neg hc, hmsg]
  · intro es hne hok
    have hf : ¬(files.isEmpty = true) := by
      intro hf
      apply hne
      rw [List.isEmpty_iff] at hf
      simp [hf, aggregateChunks]
    have hc : ¬((aggregateChunks files read_file chunkFn).isEmpty = true) := by
      simpa [List.isEmpty_iff] using hne
    have hmain : index_repo oldIndex files read_file chunkFn embed
        = ((aggregateChunks files read_file chunkFn).zip es).map (fun p =>
            ({ path := p.1.path, content := String.mk p.1.content,
               start_line := p.1.start_line, embedding := p.2 } : IndexedDoc)) := by
      rw [hunfold, if_neg hf, if_neg hc, hok]
    refine ⟨hmain, ?_⟩
    intro i d e hd he
    rw [hmain]
    exact getElem?_zip_map
      (fun p => ({ path := p.1.path, content := String.mk p.1.content,
                   start_line := p.1.start_line, embedding := p.2 } : IndexedDoc))
      (aggregateChunks files read_file chunkFn) es i d e hd he

/-- Witness for C3: one file producing one chunk, backend returning one
vector. -/
theorem c3_rebuild_atomicity_witness :
    (aggregateChunks ["a.rs"] (fun _ => "fn f") (fun _ _ => [⟨"a.rs", "fn f".data, 0, 5⟩])
        ≠ [] ∧
     (fun _ : List String => (Except.ok [[(2:ℝ)]] : Except String (List (List ℝ))))
        ((aggregateChunks ["a.rs"] (fun _ => "fn f")
            (fun _ _ => [⟨"a.rs", "fn f".data, 0, 5⟩])).map embedInput)
        = .ok [[(2:ℝ)]]) ∧
    index_repo [] ["a.rs"] (fun _ => "fn f") (fun _ _ => [⟨"a.rs", "fn f".data, 0, 5⟩])
        (fun _ => .ok [[(2:ℝ)]])
      = ((aggregateChunks ["a.rs"] (fun _ => "fn f")
            (fun _ _ => [⟨"a.rs", "fn f".data, 0, 5⟩])).zip [[(2:ℝ)]]).map (fun p =>
          ({ path := p.1.path, content := String.mk p.1.content,
             start_line := p.1.start_line, embedding := p.2 } : IndexedDoc)) :=
  ⟨⟨by decide, rfl⟩,
   ((c3_rebuild_atomicity [] ["a.rs"] (fun _ => "fn f")
       (fun _ _ => [⟨"a.rs", "fn f".data, 0, 5⟩])
       (fun _ => .ok [[(2:ℝ)]])).2.2 [[(2:ℝ)]] (by decide) rfl).1⟩

/-- In a descending-sorted list, every element is bounded by the head. -/
lemma chain_desc_le_head (y : ℝ × IndexedDoc) :
    ∀ (ys : List (ℝ × IndexedDoc)), (y :: ys).Chain' (fun a b => b.1 ≤ a.1) →
      ∀ z ∈ ys, z.1 ≤ y.1 := by
  intro ys
  induction ys generalizing y with
  | nil => intro _ z hz; simp at hz
  | cons w ws ih =>
    intro hc z hz
    have h1 : w.1 ≤ y.1 := (List.chain'_cons.mp hc).1
    rcases List.mem_cons.mp hz with rfl | hz
    · exact h1
    · exact le_trans (ih w (List.chain'_cons.mp hc).2 z hz) h1

/-- A descending-sorted list headed strictly below `s` has no score-`s`
entries. -/
lemma filter_score_eq_nil {s : ℝ} (y : ℝ × IndexedDoc) (ys : List (ℝ × IndexedDoc))
    (hc : (y :: ys).Chain' (fun a b => b.1 ≤ a.1)) (hy : y.1 < s) :
    (y :: ys).filter (fun z => decide (z.1 = s)) = [] := by
  rw [List.filter_eq_nil_iff]
  intro z hz
  simp only [decide_eq_true_eq]
  rcases List.mem_cons.mp hz with rfl | hz
  · exact ne_of_lt hy
  · exact ne_of_lt (lt_of_le_of_lt (chain_desc_le_head y ys hc z hz) hy)

/-- Inserting into a descending-sorted list appends the new element after
all existing entries of its own score (the stability step). -/
lemma insertDescByScore_filter (s : ℝ) (x : ℝ × IndexedDoc) :
    ∀ (l : List (ℝ × IndexedDoc)), l.Chain' (fun a b => b.1 ≤ a.1) →
      (insertDescByScore x l).filter (fun z => decide (z.1 = s))
        = l.filter (fun z => decide (z.1 = s)) ++ (if x.1 = s then [x] else []) := by
  intro l
  induction l with
  | nil =>
    intro _
    rw [insertDescByScore]
    by_cases hx : x.1 = s
    · simp [hx]
    · simp [hx]
  | cons y ys ih =>
    intro hl
    rw [insertDescByScore]
    by_cases h : y.1 < x.1
    · rw [if_pos h]
      by_cases hx : x.1 = s
      · have hnil : (y :: ys).filter (fun z => decide (z.1 = s)) = [] :=
          filter_score_eq_nil y ys hl (hx ▸ h)
        rw [List.filter_cons_of_pos (by simp [hx]), hnil, if_pos hx]
        rfl
      · rw [List.filter_cons_of_neg (by simp [hx]), if_neg hx, List.append_nil]
    · rw [if_neg h]
      have htl : ys.Chain' (fun a b => b.1 ≤ a.1) := hl.tail
      by_cases hy : y.1 = s
      · rw [List.filter_cons_of_pos (by simp [hy]), List.filter_cons_of_pos (by simp [hy]),
          ih htl, List.cons_append]
      · rw [List.filter_cons_of_neg (by simp [hy]), List.filter_cons_of_neg (by simp [hy]),
          ih htl]

/-- Stability of the ranking sort: for every score, the entries carrying
that score appear in the sorted output in exactly their original order. -/
lemma sortDescByScore_filter (s : ℝ) (l : List (ℝ × IndexedDoc)) :
    (sortDescByScore l).filter (fun z => decide (z.1 = s))
      = l.filter (fun z => decide (z.1 = s)) := by
  suffices h : ∀ (l acc : List (ℝ × IndexedDoc)), acc.Chain' (fun a b => b.1 ≤ a.1) →
      (l.foldl (fun acc x => insertDescByScore x acc) acc).filter (fun z => decide (z.1 = s))
        = acc.filter (fun z => decide (z.1 = s)) ++ l.filter (fun z => decide (z.1 = s)) by
    simpa using h l [] (by simp)
  intro l
  induction l with
  | nil => intro acc _; simp
  | cons x xs ih =>
    intro acc hacc
    rw [List.foldl_cons, ih _ (insertDescByScore_chain x acc hacc),
      insertDescByScore_filter s x acc hacc]
    by_cases hx : x.1 = s
    · rw [if_pos hx, List.filter_cons_of_pos (by simp [hx])]
      simp
    · rw [if_neg hx, List.filter_cons_of_neg (by simp [hx])]
      simp

/-- Cosine similarity of the unit vector `[1,0]` with itself. -/
lemma cosine_ones : cosine_similarity [(1:ℝ), 0] [(1:ℝ), 0] = 1 := by
  have hsum : (([(1:ℝ), 0]).map fun x => x * x).sum = 1 := by norm_num
  rw [cosine_similarity, hsum, Real.sqrt_one, if_neg (by norm_num)]
  norm_num

/-- Cosine similarity of the orthogonal unit vectors `[1,0]` and `[0,1]`. -/
lemma cosine_orth : cosine_similarity [(1:ℝ), 0] [(0:ℝ), 1] = 0 := by
  have hsa : (([(1:ℝ), 0]).map fun x => x * x).sum = 1 := by norm_num
  have hsb : (([(0:ℝ), 1]).map fun x => x * x).sum = 1 := by norm_num
  rw [cosine_similarity, hsa, hsb, Real.sqrt_one, if_neg (by norm_num)]
  norm_num

/-- C2: search scores every stored chunk by cosine similarity, sorts all
entries descending by score with a stable sort (for every score value the
entries carrying it keep their original order), and returns the top `k` —
all entries when `k` is at least the index size.  For indexed vectors
a=[1,0], b=[1,0], c=[0,1] and query [1,0], `search(query, 3)` returns a
then b (score 1, original order), then c (score 0). -/
theorem c2_search_ranking (index : List IndexedDoc) (q : List ℝ) (k : Nat) (s : ℝ) :
    (rankDocs index q).Chain' (fun a b => b.1 ≤ a.1) ∧
    (rankDocs index q).Perm
      (index.map fun doc => (cosine_similarity q doc.embedding, doc)) ∧
    ((rankDocs index q).filter (fun z => decide (z.1 = s))
        = (index.map fun doc => (cosine_similarity q doc.embedding, doc)).filter
            (fun z => decide (z.1 = s))) ∧
    (index.length ≤ k → (rankDocs index q).take k = rankDocs index q) ∧
    search [⟨"a", "ca", 1, [(1:ℝ), 0]⟩, ⟨"b", "cb", 2, [(1:ℝ), 0]⟩,
            ⟨"c", "cc", 3, [(0:ℝ), 1]⟩] (.ok [(1:ℝ), 0]) 3
      = .results [(1, ⟨"a", "ca", 1, [(1:ℝ), 0]⟩), (1, ⟨"b", "cb", 2, [(1:ℝ), 0]⟩),
                  (0, ⟨"c", "cc", 3, [(0:ℝ), 1]⟩)] := by
  refine ⟨sortDescByScore_chain _, sortDescByScore_perm _, sortDescByScore_filter s _,
    ?_, ?_⟩
  · intro hk
    apply List.take_of_length_le
    rw [rankDocs_length]
    exact hk
  · norm_num [search, rankDocs, sortDescByScore, insertDescByScore, cosine_ones,
      cosine_orth]

/-- Witness for C2 on a two-entry index with `k = 5` exceeding the size. -/
theorem c2_search_ranking_witness :
    ([(⟨"a", "ca", 1, [(1:ℝ), 0]⟩ : IndexedDoc), ⟨"c", "cc", 3, [(0:ℝ), 1]⟩].length ≤ 5) ∧
    (rankDocs [(⟨"a", "ca", 1, [(1:ℝ), 0]⟩ : IndexedDoc), ⟨"c", "cc", 3, [(0:ℝ), 1]⟩]
        [(1:ℝ), 0]).take 5
      = rankDocs [(⟨"a", "ca", 1, [(1:ℝ), 0]⟩ : IndexedDoc), ⟨"c", "cc", 3, [(0:ℝ), 1]⟩]
          [(1:ℝ), 0] :=
  ⟨by simp,
   (c2_search_ranking [⟨"a", "ca", 1, [(1:ℝ), 0]⟩, ⟨"c", "cc", 3, [(0:ℝ), 1]⟩]
     [(1:ℝ), 0] 5 0).2.2.2.1 (by simp)⟩

/-- A character list starts with any of its own left factors. -/
lemma startsWithSeq_append :
    ∀ (l1 l2 : List Char), startsWithSeq (l1 ++ l2) l1 = true := by
  intro l1
  induction l1 with
  | nil => intro l2; simp [startsWithSeq]
  | cons c cs ih =>
    intro l2
    simp [startsWithSeq, ih]

/-- C8 counterexample: in chunk extraction a query-construction failure hits
`.expect("Invalid query")` — a panic that never returns (modelled `none`) —
instead of surfacing a descriptive error string to the caller as the claim
requires for every place the core runs a grammar query. -/
theorem c8_counterexample :
    extract_chunks "fn main() \x7b\x7d".data "a.rs" (some ()) (.error "Invalid query") []
      = none := rfl

/-- C8 (amended): in skeleton generation a parse failure returns the
original content unchanged (never an error) and a query-construction
failure returns a distinct descriptive string starting with
`"Query Error: "`; in chunk extraction, however, a parse failure returns an
empty chunk list and a query-construction failure panics via
`.expect("Invalid query")` rather than returning an error string. -/
theorem c8_parse_and_query_failure (content repl : List Char) (path : String)
    (e : String) (q : Except String Unit) (captures : List Capture) :
    (∀ ranges, process_tree_sitter content repl true none q ranges = content) ∧
    (∀ ranges, process_tree_sitter content repl true (some ()) (.error e) ranges
        = ("Query Error: " ++ e).data) ∧
    startsWithSeq ("Query Error: " ++ e).data "Query Error: ".data = true ∧
    extract_chunks content path none q captures = some [] ∧
    extract_chunks content path (some ()) (.error e) captures = none := by
  refine ⟨fun ranges => rfl, fun ranges => rfl, ?_, rfl, rfl⟩
  rw [String.data_append]
  exact startsWithSeq_append _ _

end GitMCP
